import Mathlib

/-!
Verification of the OpenAL Soft pitch-shifter effect
(`src/alc/effects/pshifter.cpp`, `PshifterState`).

The effect is a phase vocoder: a ring-buffered framer feeds overlapping
windowed frames to an external FFT, an analyzer turns each spectral bin
into (magnitude, fractional frequency-bin), a remapper shifts bins by the
fixed-point pitch ratio, and a resynthesizer rebuilds the spectrum from
accumulated phases before the inverse FFT and windowed overlap-add.

Numeric values of type `double` in the source are modelled as real
numbers.  The external FFT kernel (`forward_fft`/`inverse_fft`), which the
specification declares out of scope, is an abstract function parameter.
`double2int` (declared in `alnumeric.h`, outside the sources at hand) is
modelled from the spec as conversion to integer truncating toward zero,
which is the rounding the spec's folding rule describes.  The fixed-point
scale `MixerFracOne = 1 << MixerFracBits` (from `core/mixer/defs.h`,
outside the sources at hand) is modelled from the spec parametrically in
the fraction-bit width `B`.
-/

namespace Pshifter

open Real

/-- `constexpr size_t StftSize{1024}` -/
def StftSize : ℕ := 1024

/-- `constexpr size_t StftHalfSize{StftSize >> 1}` -/
def StftHalfSize : ℕ := StftSize >>> 1

/-- `constexpr size_t OversampleFactor{4}` -/
def OversampleFactor : ℕ := 4

/-- `constexpr size_t StftStep{StftSize / OversampleFactor}` -/
def StftStep : ℕ := StftSize / OversampleFactor

/-- the `static_assert` of the source: the oversample factor divides the size -/
theorem stft_size_divisible : StftSize % OversampleFactor = 0 := rfl

/-- Modelled from the spec: the fixed-point scale `MixerFracOne`
(`core/mixer/defs.h` is not among the sources at hand), parametric in the
fraction-bit width `B`. -/
def MixerFracOne (B : ℕ) : ℕ := 1 <<< B

/-- Modelled from the spec: `MixerFracHalf = MixerFracOne >> 1`. -/
def MixerFracHalf (B : ℕ) : ℕ := MixerFracOne B >>> 1

/-- `struct FrequencyBin { double Magnitude; double FreqBin; }` -/
structure FrequencyBin where
  Magnitude : ℝ
  FreqBin : ℝ

/-- Modelled from the spec: `double2int` (`alnumeric.h`, not among the
sources at hand) converts a double to an integer truncating toward
zero. -/
noncomputable def double2int (x : ℝ) : ℤ :=
  if 0 ≤ x then ⌊x⌋ else ⌈x⌉

/-- Rounding to the nearest integer, halves away from zero (the rounding
of the C `round` function, used to state the spec's `2×round(x/2)`
folding rule). -/
noncomputable def roundAway (x : ℝ) : ℤ :=
  if 0 ≤ x then ⌊x + 1/2⌋ else ⌈x - 1/2⌉

/-- The principal-value fold of the source, lines 212-213 and 263-264:
`qpd = double2int(tmp); tmp -= qpd + (qpd%2)` with the C `%` (truncated
remainder, `Int.tmod`). -/
noncomputable def phaseFold (x : ℝ) : ℝ :=
  x - ((double2int x + Int.tmod (double2int x) 2 : ℤ) : ℝ)

theorem double2int_neg (x : ℝ) : double2int (-x) = -double2int x := by
  unfold double2int
  by_cases hx : 0 ≤ x
  · by_cases hnx : 0 ≤ -x
    · have hx0 : x = 0 := le_antisymm (by linarith) hx
      subst hx0; simp
    · simp only [hx, hnx, if_true, if_false]
      rw [Int.ceil_neg]
  · have hnx : 0 ≤ -x := by linarith
    simp only [hx, hnx, if_true, if_false]
    rw [Int.floor_neg]

theorem tmod_two_neg (q : ℤ) : Int.tmod (-q) 2 = -Int.tmod q 2 := by
  rw [Int.tmod_def, Int.tmod_def, Int.neg_tdiv]; ring

theorem phaseFold_neg (x : ℝ) : phaseFold (-x) = -phaseFold x := by
  unfold phaseFold
  rw [double2int_neg, tmod_two_neg]
  push_cast
  ring

theorem phaseFold_bounds_of_nonneg {x : ℝ} (hx : 0 ≤ x) :
    -1 ≤ phaseFold x ∧ phaseFold x ≤ 1 := by
  unfold phaseFold double2int
  rw [if_pos hx]
  have hq0 : (0 : ℤ) ≤ ⌊x⌋ := Int.floor_nonneg.2 hx
  rw [Int.tmod_eq_emod hq0 (by norm_num)]
  have hr : ⌊x⌋ % 2 = 0 ∨ ⌊x⌋ % 2 = 1 := Int.emod_two_eq_zero_or_one _
  have hfr1 : (0 : ℝ) ≤ x - ⌊x⌋ := by
    have := Int.floor_le x; linarith
  have hfr2 : x - ⌊x⌋ < 1 := by
    have := Int.lt_floor_add_one x; linarith
  rcases hr with h | h <;> rw [h] <;> push_cast <;> constructor <;> linarith

theorem phaseFold_mem (x : ℝ) : -1 ≤ phaseFold x ∧ phaseFold x ≤ 1 := by
  rcases le_or_lt 0 x with hx | hx
  · exact phaseFold_bounds_of_nonneg hx
  · have h := phaseFold_bounds_of_nonneg (x := -x) (by linarith)
    have he : phaseFold x = -phaseFold (-x) := by
      rw [phaseFold_neg, neg_neg]
    rw [he]
    exact ⟨by linarith [h.2], by linarith [h.1]⟩

theorem roundAway_neg (x : ℝ) : roundAway (-x) = -roundAway x := by
  unfold roundAway
  by_cases hx : 0 ≤ x
  · by_cases hnx : 0 ≤ -x
    · have hx0 : x = 0 := le_antisymm (by linarith) hx
      subst hx0; norm_num
    · simp only [hx, hnx, if_true, if_false]
      rw [show -x - 1/2 = -(x + 1/2) by ring, Int.ceil_neg]
  · have hnx : 0 ≤ -x := by linarith
    simp only [hx, hnx, if_true, if_false]
    rw [show -x + 1/2 = -(x - 1/2) by ring, Int.floor_neg]

theorem phaseFold_eq_roundAway_of_nonneg {x : ℝ} (hx : 0 ≤ x) :
    phaseFold x = x - 2 * (roundAway (x / 2) : ℝ) := by
  unfold phaseFold double2int roundAway
  rw [if_pos hx, if_pos (by linarith : (0:ℝ) ≤ x / 2)]
  have hq0 : (0 : ℤ) ≤ ⌊x⌋ := Int.floor_nonneg.2 hx
  rw [Int.tmod_eq_emod hq0 (by norm_num)]
  have hfl : ⌊x / 2 + 1/2⌋ = (⌊x⌋ + 1) / 2 := by
    rw [Int.floor_eq_iff]
    have h1 : (⌊x⌋ : ℝ) ≤ x := Int.floor_le x
    have h2 : x < ⌊x⌋ + 1 := Int.lt_floor_add_one x
    have h3 : 2 * ((⌊x⌋ + 1) / 2) ≤ ⌊x⌋ + 1 := Int.ediv_add_emod (⌊x⌋ + 1) 2 ▸ by omega
    have h4 : ⌊x⌋ ≤ 2 * ((⌊x⌋ + 1) / 2) := by omega
    constructor
    · have : ((2 * ((⌊x⌋ + 1) / 2) : ℤ) : ℝ) ≤ (⌊x⌋ : ℝ) + 1 := by exact_mod_cast by omega
      push_cast at this ⊢
      linarith
    · have : (⌊x⌋ : ℝ) ≤ ((2 * ((⌊x⌋ + 1) / 2) : ℤ) : ℝ) := by exact_mod_cast h4
      push_cast at this ⊢
      linarith
  rw [hfl]
  have : (⌊x⌋ + ⌊x⌋ % 2 : ℤ) = 2 * ((⌊x⌋ + 1) / 2) := by omega
  rw [show ((⌊x⌋ : ℤ) + ⌊x⌋ % 2 : ℤ) = 2 * ((⌊x⌋ + 1) / 2) from this]
  push_cast
  ring

theorem phaseFold_eq_roundAway (x : ℝ) :
    phaseFold x = x - 2 * (roundAway (x / 2) : ℝ) := by
  rcases le_or_lt 0 x with hx | hx
  · exact phaseFold_eq_roundAway_of_nonneg hx
  · have h := phaseFold_eq_roundAway_of_nonneg (x := -x) (by linarith)
    have he : phaseFold x = -phaseFold (-x) := by
      rw [phaseFold_neg, neg_neg]
    rw [he, h, show -x / 2 = -(x / 2) by ring, roundAway_neg]
    push_cast
    ring

/-- Destination bin of the remapper, line 238 of the source:
`j = (k*mPitchShiftI + MixerFracHalf) >> MixerFracBits`. -/
def dstBin (B P k : ℕ) : ℕ := (k * P + MixerFracHalf B) >>> B

/-- Line 234: `bin_limit = ((StftHalfSize+1)<<MixerFracBits) - MixerFracHalf - 1`. -/
def bin_limit (B : ℕ) : ℕ := ((StftHalfSize + 1) <<< B) - MixerFracHalf B - 1

/-- Line 235: `bin_count = minz(StftHalfSize+1, bin_limit/mPitchShiftI + 1)`. -/
def bin_count (B P : ℕ) : ℕ := min (StftHalfSize + 1) (bin_limit B / P + 1)

/-- The remapping loop of lines 236-247: scan analysis bins `k = 0, 1, ...`
in increasing order; for each, add its magnitude into synthesis bin
`j = dstBin B P k`, and overwrite that bin's carried frequency with
`FreqBin * mPitchShift` whenever the analysis magnitude strictly exceeds
the synthesis magnitude accumulated so far.  `remapLoop B P ps A n S`
performs the first `n` iterations starting from synthesis buffer `S`. -/
noncomputable def remapLoop (B P : ℕ) (ps : ℝ) (A : ℕ → FrequencyBin) :
    ℕ → (ℕ → FrequencyBin) → (ℕ → FrequencyBin)
  | 0, S => S
  | n + 1, S =>
    let Sn := remapLoop B P ps A n S
    let j := dstBin B P n
    fun i =>
      if i = j then
        ⟨(Sn j).Magnitude + (A n).Magnitude,
         if (A n).Magnitude > (Sn j).Magnitude then (A n).FreqBin * ps
         else (Sn j).FreqBin⟩
      else Sn i

/-- The all-zero synthesis buffer the loop starts from
(`std::fill(mSynthesisBuffer..., FrequencyBin{})`, line 232). -/
def zeroBins : ℕ → FrequencyBin := fun _ => ⟨0, 0⟩

/-- Sum of the magnitudes of the analysis bins among `0, ..., n-1` that the
remapper sends to destination bin `j`. -/
noncomputable def contribMagSum (A : ℕ → FrequencyBin) (B P j n : ℕ) : ℝ :=
  ∑ k ∈ (Finset.range n).filter (fun k => dstBin B P k = j), (A k).Magnitude

/-- Carried frequency of destination bin `j` after scanning analysis bins
`0, ..., n-1`: the (ratio-scaled) frequency of the most recent contributor
whose magnitude strictly exceeded the sum of the magnitudes of all earlier
contributors to `j`; `0` when no contributor ever did. -/
noncomputable def carriedFreq (A : ℕ → FrequencyBin) (B P : ℕ) (ps : ℝ) (j : ℕ) :
    ℕ → ℝ
  | 0 => 0
  | n + 1 =>
    if dstBin B P n = j ∧ (A n).Magnitude > contribMagSum A B P j n then
      (A n).FreqBin * ps
    else carriedFreq A B P ps j n

theorem contribMagSum_succ (A : ℕ → FrequencyBin) (B P j n : ℕ) :
    contribMagSum A B P j (n + 1) =
      if dstBin B P n = j then contribMagSum A B P j n + (A n).Magnitude
      else contribMagSum A B P j n := by
  unfold contribMagSum
  rw [Finset.range_succ, Finset.filter_insert]
  by_cases h : dstBin B P n = j
  · rw [if_pos h, if_pos h, Finset.sum_insert (by simp), add_comm]
  · rw [if_neg h, if_neg h]

/-- Characterization of the remapping loop started from the cleared
synthesis buffer: magnitudes accumulate, and the carried frequency is the
one of `carriedFreq`. -/
theorem remapLoop_char (B P : ℕ) (ps : ℝ) (A : ℕ → FrequencyBin) (n j : ℕ) :
    remapLoop B P ps A n zeroBins j =
      ⟨contribMagSum A B P j n, carriedFreq A B P ps j n⟩ := by
  induction n generalizing j with
  | zero =>
    simp only [remapLoop, zeroBins, carriedFreq]
    unfold contribMagSum
    simp
  | succ n ih =>
    simp only [remapLoop]
    by_cases hj : j = dstBin B P n
    · subst hj
      rw [if_pos rfl, ih, contribMagSum_succ, if_pos rfl]
      congr 1
      simp only [carriedFreq]
      by_cases hm : (A n).Magnitude > contribMagSum A B P (dstBin B P n) n
      · rw [if_pos hm, if_pos ⟨trivial, hm⟩]
      · rw [if_neg hm, if_neg (fun hc => hm hc.2)]
    · rw [if_neg hj, ih, contribMagSum_succ, if_neg (fun h => hj h.symm)]
      simp only [carriedFreq]
      rw [if_neg (fun hc => hj hc.1.symm)]

/-- Contributions stabilize: if no analysis bin in `[m, n)` maps to `j`,
the accumulated magnitude and carried frequency at `n` equal those at `m`. -/
theorem remap_stable (A : ℕ → FrequencyBin) (B P : ℕ) (ps : ℝ) (j m n : ℕ)
    (hmn : m ≤ n) (h : ∀ k, m ≤ k → k < n → dstBin B P k ≠ j) :
    contribMagSum A B P j n = contribMagSum A B P j m ∧
      carriedFreq A B P ps j n = carriedFreq A B P ps j m := by
  induction n with
  | zero =>
    have : m = 0 := Nat.le_zero.mp hmn
    subst this; exact ⟨rfl, rfl⟩
  | succ n ih =>
    rcases Nat.lt_or_ge m (n + 1) with hlt | hge
    · have hmn' : m ≤ n := Nat.lt_succ_iff.mp hlt
      have hd : dstBin B P n ≠ j := h n hmn' (Nat.lt_succ_self n)
      have ih' := ih hmn' (fun k hk1 hk2 => h k hk1 (Nat.lt_succ_of_lt hk2))
      constructor
      · rw [contribMagSum_succ, if_neg hd, ih'.1]
      · simp only [carriedFreq]
        rw [if_neg (fun hc => hd hc.1), ih'.2]
    · have : m = n + 1 := le_antisymm hmn hge
      subst this; exact ⟨rfl, rfl⟩

/-- The Hann window of `InitHannWindow` (lines 60-72):
`ret[i] = ret[StftSize-1-i] = sin((i+0.5)*pi/StftSize)^2` for
`i < StftHalfSize`. -/
noncomputable def HannWindow (k : ℕ) : ℝ :=
  if k < StftHalfSize then
    let val := Real.sin (((k : ℝ) + 0.5) * (π / (StftSize : ℝ)))
    val * val
  else
    let val := Real.sin ((((StftSize - 1 - k : ℕ) : ℝ) + 0.5) * (π / (StftSize : ℝ)))
    val * val

/-- `std::polar(r, θ)` -/
noncomputable def cpolar (r θ : ℝ) : ℂ :=
  ⟨r * Real.cos θ, r * Real.sin θ⟩

/-- `constexpr double expected_cycles{al::numbers::pi*2.0 / OversampleFactor}`
(line 159). -/
noncomputable def expected_cycles : ℝ := π * 2 / (OversampleFactor : ℝ)

/-- The per-bin analyzer of lines 193-227, after magnitude and phase have
been taken from the transformed spectrum: subtract the expected per-hop
phase advance of bin `k`, normalize by pi, fold, convert to bin units, and
return the analysis bin together with the new last-observed phase. -/
noncomputable def analysisUpdate (lastPhase : ℝ) (k : ℕ) (phase magnitude : ℝ) :
    FrequencyBin × ℝ :=
  let bin_offset : ℝ := ((k % OversampleFactor : ℕ) : ℝ)
  let tmp := ((phase - lastPhase) - bin_offset * expected_cycles) * π⁻¹
  (⟨magnitude, (k : ℝ) + phaseFold tmp * (0.5 * (OversampleFactor : ℝ))⟩, phase)

/-- The per-bin resynthesizer phase accumulator of lines 252-265: advance
the accumulated phase by the destination frequency times `expected_cycles`
and wrap it between `-pi` and `+pi`. -/
noncomputable def sumPhaseUpdate (sumPhase freqBin : ℝ) : ℝ :=
  let tmp := sumPhase + freqBin * expected_cycles
  tmp - π * ((double2int (tmp * π⁻¹) + Int.tmod (double2int (tmp * π⁻¹)) 2 : ℤ) : ℝ)

/-- The accumulated synthesis phase of one bin across hops, starting from
the zeroed reset state; `f n` is the destination frequency fed to the bin
on hop `n`. -/
noncomputable def sumPhaseTraj (f : ℕ → ℝ) : ℕ → ℝ
  | 0 => 0
  | n + 1 => sumPhaseUpdate (sumPhaseTraj f n) (f n)

/-- The state of `PshifterState` that the effect's processing path touches.
`mBufferOut` (the mono working buffer handed to the external mixing
routine) is returned by `process` instead of being stored.  `mOutTarget`
is an opaque identifier for the routing the parameter update installs. -/
structure PState where
  mCount : ℕ
  mPos : ℕ
  mPitchShiftI : ℕ
  mPitchShift : ℝ
  mFIFO : ℕ → ℝ
  mLastPhase : ℕ → ℝ
  mSumPhase : ℕ → ℝ
  mOutputAccum : ℕ → ℝ
  mFftBuffer : ℕ → ℂ
  mAnalysisBuffer : ℕ → FrequencyBin
  mSynthesisBuffer : ℕ → FrequencyBin
  mOutTarget : ℕ
  mCurrentGains : ℕ → ℝ
  mTargetGains : ℕ → ℝ

/-- `PshifterState::deviceUpdate` (lines 115-133): reinitialize the
parameters and clear the buffers.  `mOutTarget` is not touched. -/
def deviceUpdate (B : ℕ) (s : PState) : PState :=
  { s with
    mCount := 0
    mPos := StftSize - StftStep
    mPitchShiftI := MixerFracOne B
    mPitchShift := 1
    mFIFO := fun _ => 0
    mLastPhase := fun _ => 0
    mSumPhase := fun _ => 0
    mOutputAccum := fun _ => 0
    mFftBuffer := fun _ => 0
    mAnalysisBuffer := fun _ => ⟨0, 0⟩
    mSynthesisBuffer := fun _ => ⟨0, 0⟩
    mCurrentGains := fun _ => 0
    mTargetGains := fun _ => 0 }

/-- A freshly reset effect instance. -/
def resetState (B : ℕ) : PState :=
  deviceUpdate B
    ⟨0, 0, 0, 0, fun _ => 0, fun _ => 0, fun _ => 0, fun _ => 0, fun _ => 0,
     fun _ => ⟨0, 0⟩, fun _ => ⟨0, 0⟩, 0, fun _ => 0, fun _ => 0⟩

/-- `PshifterState::update` (lines 135-147).  `tune` combines the two
integer tuning inputs; the pitch is `2^(tune/1200)`; `fastf2u`
(`alnumeric.h`, not among the sources at hand) is modelled from the spec
as conversion to an unsigned integer truncating toward zero (the value is
always positive, so the floor).  The externally computed panning gains and
the output target are inputs. -/
noncomputable def update (B : ℕ) (s : PState) (CoarseTune FineTune : ℤ)
    (target : ℕ) (panGains : ℕ → ℝ) : PState :=
  let tune : ℤ := CoarseTune * 100 + FineTune
  let pitch : ℝ := (2 : ℝ) ^ ((tune : ℝ) / 1200)
  let pitchI : ℕ := (⌊pitch * (MixerFracOne B : ℝ)⌋).toNat
  { s with
    mPitchShiftI := pitchI
    mPitchShift := (pitchI : ℝ) * (1 / (MixerFracOne B : ℝ))
    mOutTarget := target
    mTargetGains := panGains }

/-- Frame extraction with windowing, lines 184-187: `mFftBuffer[k] =
mFIFO[src] * HannWindow[k]` where `src` starts at `mPos` and wraps at
`StftSize`. -/
noncomputable def hopWindowIn (s : PState) : ℕ → ℂ :=
  fun k =>
    if k < StftSize - s.mPos then ((s.mFIFO (s.mPos + k) * HannWindow k : ℝ) : ℂ)
    else ((s.mFIFO (k - (StftSize - s.mPos)) * HannWindow k : ℝ) : ℂ)

/-- The spectrum after the forward transform (line 188); `fftF` is the
external FFT kernel. -/
noncomputable def hopSpec (fftF : (ℕ → ℂ) → (ℕ → ℂ)) (s : PState) : ℕ → ℂ :=
  fftF (hopWindowIn s)

/-- The analysis loop of lines 193-227 applied to the first
`StftHalfSize+1` bins. -/
noncomputable def hopAnalysis (fftF : (ℕ → ℂ) → (ℕ → ℂ)) (s : PState) :
    ℕ → FrequencyBin :=
  fun k =>
    if k ≤ StftHalfSize then
      (analysisUpdate (s.mLastPhase k) k (Complex.arg (hopSpec fftF s k))
        (Complex.abs (hopSpec fftF s k))).1
    else s.mAnalysisBuffer k

/-- The last-observed phases after the analysis loop: the raw measured
phase for the analyzed bins (line 208). -/
noncomputable def hopLastPhase (fftF : (ℕ → ℂ) → (ℕ → ℂ)) (s : PState) : ℕ → ℝ :=
  fun k =>
    if k ≤ StftHalfSize then
      (analysisUpdate (s.mLastPhase k) k (Complex.arg (hopSpec fftF s k))
        (Complex.abs (hopSpec fftF s k))).2
    else s.mLastPhase k

/-- The synthesis buffer after the remapping loop of lines 232-247. -/
noncomputable def hopSynthesis (B : ℕ) (fftF : (ℕ → ℂ) → (ℕ → ℂ)) (s : PState) :
    ℕ → FrequencyBin :=
  remapLoop B s.mPitchShiftI s.mPitchShift (hopAnalysis fftF s)
    (bin_count B s.mPitchShiftI) zeroBins

/-- The accumulated synthesis phases after the resynthesis loop of lines
252-265. -/
noncomputable def hopSumPhase (B : ℕ) (fftF : (ℕ → ℂ) → (ℕ → ℂ)) (s : PState) :
    ℕ → ℝ :=
  fun k =>
    if k ≤ StftHalfSize then
      sumPhaseUpdate (s.mSumPhase k) ((hopSynthesis B fftF s k).FreqBin)
    else s.mSumPhase k

/-- The reconstructed spectrum, lines 267-270: polar coefficients on the
lower half, conjugate symmetry on the upper half (the value at `StftSize-k`
is the polar coefficient just written there). -/
noncomputable def hopResynth (B : ℕ) (fftF : (ℕ → ℂ) → (ℕ → ℂ)) (s : PState) :
    ℕ → ℂ :=
  fun k =>
    if k ≤ StftHalfSize then
      cpolar ((hopSynthesis B fftF s k).Magnitude) (hopSumPhase B fftF s k)
    else if k < StftSize then
      star (cpolar ((hopSynthesis B fftF s (StftSize - k)).Magnitude)
        (hopSumPhase B fftF s (StftSize - k)))
    else hopSpec fftF s k

/-- The time-domain frame after the inverse transform (line 275); `fftI`
is the external inverse FFT kernel. -/
noncomputable def hopTime (B : ℕ) (fftF fftI : (ℕ → ℂ) → (ℕ → ℂ)) (s : PState) :
    ℕ → ℂ :=
  fftI (hopResynth B fftF s)

/-- Window index for output accumulation at buffer position `i`
(lines 278-281): positions from `mPos` use `k = i - mPos`, positions
before `mPos` use `k = i + (StftSize - mPos)`. -/
def hopK (s : PState) (i : ℕ) : ℕ :=
  if s.mPos ≤ i then i - s.mPos else i + (StftSize - s.mPos)

/-- `static constexpr double scale{4.0 / OversampleFactor / StftSize}`
(line 277). -/
noncomputable def oaScale : ℝ := (4 : ℝ) / (OversampleFactor : ℝ) / (StftSize : ℝ)

/-- The output accumulator after the windowed overlap-add of lines
277-281, before the copy-out. -/
noncomputable def hopAccum (B : ℕ) (fftF fftI : (ℕ → ℂ) → (ℕ → ℂ)) (s : PState) :
    ℕ → ℝ :=
  fun i =>
    if i < StftSize then
      s.mOutputAccum i +
        HannWindow (hopK s i) * (hopTime B fftF fftI s (hopK s i)).re * oaScale
    else s.mOutputAccum i

/-- One full analysis/resynthesis cycle (lines 184-285), entered with the
already-advanced cursor and refilled FIFO: window+forward FFT, analysis,
bin remapping, resynthesis, inverse FFT, windowed overlap-add, then copy
`StftStep` accumulated samples at the cursor back into the FIFO and zero
those accumulator slots. -/
noncomputable def hopStep (B : ℕ) (fftF fftI : (ℕ → ℂ) → (ℕ → ℂ)) (s : PState) :
    PState :=
  { s with
    mFftBuffer := hopTime B fftF fftI s
    mLastPhase := hopLastPhase fftF s
    mAnalysisBuffer := hopAnalysis fftF s
    mSynthesisBuffer := hopSynthesis B fftF s
    mSumPhase := hopSumPhase B fftF s
    mFIFO := fun i =>
      if s.mPos ≤ i ∧ i < s.mPos + StftStep then hopAccum B fftF fftI s i
      else s.mFIFO i
    mOutputAccum := fun i =>
      if s.mPos ≤ i ∧ i < s.mPos + StftStep then 0
      else hopAccum B fftF fftI s i }

/-- Lines 168-170: emit `todo` output samples from the FIFO at
`mPos + mCount` into the working output buffer at `base`. -/
def emitChunk (s : PState) (base todo : ℕ) (out : ℕ → ℝ) : ℕ → ℝ :=
  fun i =>
    if base ≤ i ∧ i < base + todo then s.mFIFO (s.mPos + s.mCount + (i - base))
    else out i

/-- Line 172: overwrite the same `todo` FIFO positions with the new input
samples taken from `base`. -/
def fillChunk (s : PState) (input : ℕ → ℝ) (base todo : ℕ) : ℕ → ℝ :=
  fun i =>
    if s.mPos + s.mCount ≤ i ∧ i < s.mPos + s.mCount + todo then
      input (base + (i - (s.mPos + s.mCount)))
    else s.mFIFO i

/-- The processing loop of `PshifterState::process` (lines 161-286),
with `fuel` bounding the number of iterations (each iteration consumes at
least one sample, so `fuel = samplesToDo` iterations suffice): emit/fill a
chunk of `todo = min(StftStep - mCount, samplesToDo - base)` samples; if
the FIFO is not yet full, stop; otherwise reset the hop counter, advance
the cursor by `StftStep` (masked wraparound), run one hop, and continue. -/
noncomputable def processLoop (B : ℕ) (fftF fftI : (ℕ → ℂ) → (ℕ → ℂ))
    (input : ℕ → ℝ) (samplesToDo : ℕ) :
    ℕ → ℕ → PState → (ℕ → ℝ) → PState × (ℕ → ℝ)
  | 0, _, s, out => (s, out)
  | fuel + 1, base, s, out =>
    if base < samplesToDo then
      let todo := min (StftStep - s.mCount) (samplesToDo - base)
      let out' := emitChunk s base todo out
      let fifo' := fillChunk s input base todo
      if s.mCount + todo < StftStep then
        ({ s with mCount := s.mCount + todo, mFIFO := fifo' }, out')
      else
        processLoop B fftF fftI input samplesToDo fuel (base + todo)
          (hopStep B fftF fftI
            { s with
              mCount := 0
              mPos := (s.mPos + StftStep) &&& (StftSize - 1)
              mFIFO := fifo' })
          out'
    else (s, out)

/-- `PshifterState::process`: only the first channel line of `samplesIn`
is consumed; the returned function is the mono working buffer
(`mBufferOut`) that the external `MixSamples` routine then blends into the
output channels with the current/target gains. -/
noncomputable def process (B : ℕ) (fftF fftI : (ℕ → ℂ) → (ℕ → ℂ))
    (samplesIn : ℕ → ℕ → ℝ) (samplesToDo : ℕ) (s : PState) :
    PState × (ℕ → ℝ) :=
  processLoop B fftF fftI (samplesIn 0) samplesToDo samplesToDo 0 s (fun _ => 0)

theorem MixerFracOne_eq (B : ℕ) : MixerFracOne B = 2 ^ B := by
  unfold MixerFracOne
  rw [Nat.shiftLeft_eq, one_mul]

theorem MixerFracHalf_eq (B : ℕ) : MixerFracHalf B = 2 ^ B / 2 := by
  unfold MixerFracHalf
  rw [MixerFracOne_eq, Nat.shiftRight_eq_div_pow, pow_one]

/-- C1: for every pitch-shift value `P` the parameter update can produce
(`P ≥ 1`), every analysis bin `k` inside the pre-clamped scan range
`bin_count` has its destination bin `dstBin` within the synthesis array
bound `StftHalfSize`, so the writes of the remapping loop are in
bounds. -/
theorem pshifter_C1_remap_in_bounds (B P k : ℕ) (hP : 0 < P)
    (hk : k < bin_count B P) : dstBin B P k ≤ StftHalfSize := by
  have hE : 0 < 2 ^ B := Nat.pos_pow_of_pos B (by norm_num)
  have hlim : bin_limit B = 513 * 2 ^ B - 2 ^ B / 2 - 1 := by
    unfold bin_limit
    rw [MixerFracHalf_eq, Nat.shiftLeft_eq,
      show StftHalfSize + 1 = 513 from by decide]
  have h1 : k ≤ bin_limit B / P := by
    unfold bin_count at hk
    omega
  have h2 : k * P ≤ bin_limit B := (Nat.le_div_iff_mul_le hP).mp h1
  rw [hlim] at h2
  have hgoal : k * P + 2 ^ B / 2 < 513 * 2 ^ B := by omega
  unfold dstBin
  rw [MixerFracHalf_eq, Nat.shiftRight_eq_div_pow]
  have hdiv : (k * P + 2 ^ B / 2) / 2 ^ B < 513 :=
    (Nat.div_lt_iff_lt_mul hE).mpr (by omega)
  unfold StftHalfSize StftSize
  omega

theorem pshifter_C1_witness : dstBin 16 1 0 ≤ StftHalfSize :=
  pshifter_C1_remap_in_bounds 16 1 0 (by decide) (by decide)

/-- C2 (amended): after the remapping loop, each synthesis bin `j` holds
the sum of the magnitudes of all scanned analysis bins mapping to `j`, and
a carried frequency equal to the pitch-ratio-scaled frequency of the most
recent contributor whose magnitude strictly exceeded the synthesis
magnitude accumulated so far — that is, the running *sum* of the earlier
contributors' magnitudes, not the largest individual contributor
(`carriedFreq`); `0` if no contributor ever exceeded the running sum. -/
theorem pshifter_C2_remap_merge :
    (∀ (B P : ℕ) (ps : ℝ) (A : ℕ → FrequencyBin) (j : ℕ),
        (remapLoop B P ps A (bin_count B P) zeroBins j).Magnitude
            = contribMagSum A B P j (bin_count B P)
          ∧ (remapLoop B P ps A (bin_count B P) zeroBins j).FreqBin
            = carriedFreq A B P ps j (bin_count B P))
    ∧ (∀ (B : ℕ) (fftF : (ℕ → ℂ) → (ℕ → ℂ)) (s : PState) (j : ℕ),
        hopSynthesis B fftF s j
          = ⟨contribMagSum (hopAnalysis fftF s) B s.mPitchShiftI j
               (bin_count B s.mPitchShiftI),
             carriedFreq (hopAnalysis fftF s) B s.mPitchShiftI s.mPitchShift j
               (bin_count B s.mPitchShiftI)⟩) := by
  constructor
  · intro B P ps A j
    rw [remapLoop_char]
    exact ⟨rfl, rfl⟩
  · intro B fftF s j
    unfold hopSynthesis
    rw [remapLoop_char]

/-- A concrete analysis buffer on which the original claim fails: three
bins of magnitudes 3, 2, 4 all map to the same destination. -/
def Aex : ℕ → FrequencyBin := fun k =>
  if k = 2 then ⟨3, 10⟩
  else if k = 3 then ⟨2, 20⟩
  else if k = 4 then ⟨4, 30⟩
  else ⟨0, 0⟩

theorem Aex_dst (k : ℕ) : dstBin 2 1 k = (k + 2) / 4 := by
  unfold dstBin
  rw [MixerFracHalf_eq, Nat.shiftRight_eq_div_pow]
  norm_num

/-- C2 counterexample: the claim that the carried frequency comes from the
contributor with the strictly largest magnitude is false.  With analysis
magnitudes 3, 2, 4 merging into one synthesis bin (pitch ratio 1/4), the
code compares each contributor against the running magnitude *sum*
(3, then 3+2), so neither 2 nor 4 wins and the frequency stays that of the
first bin (magnitude 3), not of the strictly dominant bin (magnitude 4). -/
theorem pshifter_C2_counterexample :
    ¬ (∀ (B P : ℕ) (ps : ℝ) (A : ℕ → FrequencyBin) (j kdom : ℕ),
        kdom < bin_count B P → dstBin B P kdom = j →
        (∀ k, k < bin_count B P → dstBin B P k = j → k ≠ kdom →
          (A k).Magnitude < (A kdom).Magnitude) →
        (remapLoop B P ps A (bin_count B P) zeroBins j).FreqBin
          = (A kdom).FreqBin * ps) := by
  intro h
  have hdom : ∀ k, k < bin_count 2 1 → dstBin 2 1 k = 1 → k ≠ 4 →
      (Aex k).Magnitude < (Aex 4).Magnitude := by
    intro k _ hdk hne
    rw [Aex_dst] at hdk
    have : k = 2 ∨ k = 3 ∨ k = 5 := by omega
    rcases this with rfl | rfl | rfl <;> norm_num [Aex]
  have h4 := h 2 1 (1/4) Aex 1 4 (by decide) (by decide) hdom
  have h5 : carriedFreq Aex 2 1 (1/4) 1 (bin_count 2 1) = (Aex 4).FreqBin * (1/4) := by
    rw [← h4, remapLoop_char]
  have hbc : bin_count 2 1 = 513 := by decide
  rw [hbc] at h5
  have hs0 : contribMagSum Aex 2 1 1 0 = 0 := by
    unfold contribMagSum; simp
  have hs1 : contribMagSum Aex 2 1 1 1 = 0 := by
    rw [contribMagSum_succ, if_neg (by decide)]; exact hs0
  have hs2 : contribMagSum Aex 2 1 1 2 = 0 := by
    rw [contribMagSum_succ, if_neg (by decide)]; exact hs1
  have hs3 : contribMagSum Aex 2 1 1 3 = 3 := by
    rw [contribMagSum_succ, if_pos (by decide), hs2]
    norm_num [Aex]
  have hs4 : contribMagSum Aex 2 1 1 4 = 5 := by
    rw [contribMagSum_succ, if_pos (by decide), hs3]
    norm_num [Aex]
  have hs5 : contribMagSum Aex 2 1 1 5 = 9 := by
    rw [contribMagSum_succ, if_pos (by decide), hs4]
    norm_num [Aex]
  have hc3 : carriedFreq Aex 2 1 (1/4) 1 3 = 5/2 := by
    show (if dstBin 2 1 2 = 1 ∧ (Aex 2).Magnitude > contribMagSum Aex 2 1 1 2
      then (Aex 2).FreqBin * (1/4) else carriedFreq Aex 2 1 (1/4) 1 2) = 5/2
    rw [if_pos ⟨by decide, by rw [hs2]; norm_num [Aex]⟩]
    norm_num [Aex]
  have hc4 : carriedFreq Aex 2 1 (1/4) 1 4 = 5/2 := by
    show (if dstBin 2 1 3 = 1 ∧ (Aex 3).Magnitude > contribMagSum Aex 2 1 1 3
      then (Aex 3).FreqBin * (1/4) else carriedFreq Aex 2 1 (1/4) 1 3) = 5/2
    rw [if_neg (by
      rintro ⟨-, hgt⟩
      rw [hs3] at hgt
      norm_num [Aex] at hgt)]
    exact hc3
  have hc5 : carriedFreq Aex 2 1 (1/4) 1 5 = 5/2 := by
    show (if dstBin 2 1 4 = 1 ∧ (Aex 4).Magnitude > contribMagSum Aex 2 1 1 4
      then (Aex 4).FreqBin * (1/4) else carriedFreq Aex 2 1 (1/4) 1 4) = 5/2
    rw [if_neg (by
      rintro ⟨-, hgt⟩
      rw [hs4] at hgt
      norm_num [Aex] at hgt)]
    exact hc4
  have hc6 : carriedFreq Aex 2 1 (1/4) 1 6 = 5/2 := by
    show (if dstBin 2 1 5 = 1 ∧ (Aex 5).Magnitude > contribMagSum Aex 2 1 1 5
      then (Aex 5).FreqBin * (1/4) else carriedFreq Aex 2 1 (1/4) 1 5) = 5/2
    rw [if_neg (by
      rintro ⟨-, hgt⟩
      rw [hs5] at hgt
      norm_num [Aex] at hgt)]
    exact hc5
  have hstab := (remap_stable Aex 2 1 (1/4) 1 6 513 (by norm_num)
    (fun k hk1 hk2 => by rw [Aex_dst]; omega)).2
  rw [hstab, hc6] at h5
  norm_num [Aex] at h5

/-- C3: on every hop, for every analyzed bin `k ≤ StftHalfSize`, the
analyzer takes the raw phase difference from the last observed phase,
subtracts the expected per-hop advance `(k mod R)·(2π/R)`, divides by π,
folds into `[-1, 1]` (the fold equals subtracting `2·round(x/2)`, rounding
halves away from zero, and lands in `[-1, 1]` for every real input),
scales by `0.5·R`, stores frequency `k +` that deviation, and records the
raw measured phase — not the folded value — as the new last phase. -/
theorem pshifter_C3_analysis (B : ℕ) (fftF fftI : (ℕ → ℂ) → (ℕ → ℂ))
    (s : PState) (k : ℕ) (hk : k ≤ StftHalfSize) :
    (hopStep B fftF fftI s).mAnalysisBuffer k =
        ⟨Complex.abs (hopSpec fftF s k),
         (k : ℝ) + phaseFold (((Complex.arg (hopSpec fftF s k) - s.mLastPhase k)
             - ((k % OversampleFactor : ℕ) : ℝ) * (2 * π / (OversampleFactor : ℝ))) / π)
           * (0.5 * (OversampleFactor : ℝ))⟩
      ∧ (hopStep B fftF fftI s).mLastPhase k = Complex.arg (hopSpec fftF s k)
      ∧ (∀ x : ℝ, phaseFold x = x - 2 * (roundAway (x / 2) : ℝ)
          ∧ -1 ≤ phaseFold x ∧ phaseFold x ≤ 1) := by
  refine ⟨?_, ?_, fun x =>
    ⟨phaseFold_eq_roundAway x, (phaseFold_mem x).1, (phaseFold_mem x).2⟩⟩
  · show hopAnalysis fftF s k = _
    unfold hopAnalysis
    rw [if_pos hk]
    have harg : ((Complex.arg (hopSpec fftF s k) - s.mLastPhase k)
        - ((k % OversampleFactor : ℕ) : ℝ) * expected_cycles) * π⁻¹
        = ((Complex.arg (hopSpec fftF s k) - s.mLastPhase k)
        - ((k % OversampleFactor : ℕ) : ℝ) * (2 * π / (OversampleFactor : ℝ))) / π := by
      unfold expected_cycles
      ring
    show (⟨Complex.abs (hopSpec fftF s k),
        (k : ℝ) + phaseFold (((Complex.arg (hopSpec fftF s k) - s.mLastPhase k)
            - ((k % OversampleFactor : ℕ) : ℝ) * expected_cycles) * π⁻¹)
          * (0.5 * (OversampleFactor : ℝ))⟩ : FrequencyBin) = _
    rw [harg]
  · show hopLastPhase fftF s k = _
    unfold hopLastPhase
    rw [if_pos hk]
    rfl

theorem pshifter_C3_witness :
    (hopStep 16 id id (resetState 16)).mLastPhase 0
      = Complex.arg (hopSpec id (resetState 16) 0) :=
  (pshifter_C3_analysis 16 id id (resetState 16) 0 (by decide)).2.1

theorem sumPhaseUpdate_eq_fold (sp f : ℝ) :
    sumPhaseUpdate sp f = π * phaseFold ((sp + f * expected_cycles) * π⁻¹) := by
  unfold sumPhaseUpdate phaseFold
  have hπ : (π : ℝ) ≠ 0 := Real.pi_ne_zero
  field_simp

theorem sumPhaseUpdate_bounds (sp f : ℝ) :
    -π ≤ sumPhaseUpdate sp f ∧ sumPhaseUpdate sp f ≤ π := by
  rw [sumPhaseUpdate_eq_fold]
  have h1 := (phaseFold_mem ((sp + f * expected_cycles) * π⁻¹)).1
  have h2 := (phaseFold_mem ((sp + f * expected_cycles) * π⁻¹)).2
  have hπ := Real.pi_pos
  constructor <;> nlinarith

/-- C4: after the wrap step of every hop, every accumulated synthesis
phase lies in `[-π, π]`; and the per-bin phase trajectory started from the
zeroed reset state stays in `[-π, π]` for arbitrarily many hops, whatever
destination frequencies (hence whatever input and pitch ratio) feed it. -/
theorem pshifter_C4_phase_bounded :
    (∀ (B : ℕ) (fftF fftI : (ℕ → ℂ) → (ℕ → ℂ)) (s : PState) (k : ℕ),
        k ≤ StftHalfSize →
        -π ≤ (hopStep B fftF fftI s).mSumPhase k
          ∧ (hopStep B fftF fftI s).mSumPhase k ≤ π)
    ∧ (∀ (f : ℕ → ℝ) (n : ℕ), -π ≤ sumPhaseTraj f n ∧ sumPhaseTraj f n ≤ π) := by
  constructor
  · intro B fftF fftI s k hk
    show -π ≤ hopSumPhase B fftF s k ∧ hopSumPhase B fftF s k ≤ π
    unfold hopSumPhase
    rw [if_pos hk]
    exact sumPhaseUpdate_bounds _ _
  · intro f n
    cases n with
    | zero =>
      have := Real.pi_pos
      constructor
      · show -π ≤ (0 : ℝ)
        linarith
      · show (0 : ℝ) ≤ π
        linarith
    | succ n => exact sumPhaseUpdate_bounds _ _

theorem pshifter_C4_witness :
    -π ≤ (hopStep 16 id id (resetState 16)).mSumPhase 0
      ∧ (hopStep 16 id id (resetState 16)).mSumPhase 0 ≤ π :=
  pshifter_C4_phase_bounded.1 16 id id (resetState 16) 0 (by decide)

/-- C5: one iteration of the framer.  The emitted output samples read the
ring buffer at `mPos + mCount + i` *before* the same positions are
overwritten with the new input samples; the hop counter grows by the chunk
size and, when it reaches `StftStep`, the loop resets it to zero, advances
the cursor by `StftStep` (masked modulo `StftSize`) and runs one full
analysis/resynthesis cycle; that cycle ends by copying exactly `StftStep`
samples of the output accumulator at the cursor into the ring buffer and
zeroing exactly those accumulator slots (all other positions keep their
values). -/
theorem pshifter_C5_framer (B : ℕ) (fftF fftI : (ℕ → ℂ) → (ℕ → ℂ))
    (input out : ℕ → ℝ) (n fuel base : ℕ) (s : PState) :
    (∀ i, i < min (StftStep - s.mCount) (n - base) →
        emitChunk s base (min (StftStep - s.mCount) (n - base)) out (base + i)
            = s.mFIFO (s.mPos + s.mCount + i)
          ∧ fillChunk s input base (min (StftStep - s.mCount) (n - base))
              (s.mPos + s.mCount + i) = input (base + i))
    ∧ (base < n → s.mCount + min (StftStep - s.mCount) (n - base) < StftStep →
        processLoop B fftF fftI input n (fuel + 1) base s out
          = ({ s with
                mCount := s.mCount + min (StftStep - s.mCount) (n - base),
                mFIFO := fillChunk s input base (min (StftStep - s.mCount) (n - base)) },
             emitChunk s base (min (StftStep - s.mCount) (n - base)) out))
    ∧ (base < n → s.mCount + min (StftStep - s.mCount) (n - base) = StftStep →
        processLoop B fftF fftI input n (fuel + 1) base s out
          = processLoop B fftF fftI input n fuel
              (base + min (StftStep - s.mCount) (n - base))
              (hopStep B fftF fftI
                { s with
                  mCount := 0,
                  mPos := (s.mPos + StftStep) &&& (StftSize - 1),
                  mFIFO := fillChunk s input base (min (StftStep - s.mCount) (n - base)) })
              (emitChunk s base (min (StftStep - s.mCount) (n - base)) out))
    ∧ (∀ i, i < StftStep →
        (hopStep B fftF fftI s).mFIFO (s.mPos + i) = hopAccum B fftF fftI s (s.mPos + i)
          ∧ (hopStep B fftF fftI s).mOutputAccum (s.mPos + i) = 0)
    ∧ (∀ i, i < s.mPos ∨ s.mPos + StftStep ≤ i →
        (hopStep B fftF fftI s).mFIFO i = s.mFIFO i
          ∧ (hopStep B fftF fftI s).mOutputAccum i = hopAccum B fftF fftI s i) := by
  refine ⟨?_, ?_, ?_, ?_, ?_⟩
  · intro i hi
    constructor
    · unfold emitChunk
      rw [if_pos ⟨Nat.le_add_right base i, by omega⟩]
      rw [Nat.add_sub_cancel_left]
    · unfold fillChunk
      rw [if_pos ⟨Nat.le_add_right _ i, by omega⟩]
      rw [Nat.add_sub_cancel_left]
  · intro h1 h2
    simp only [processLoop]
    rw [if_pos h1, if_pos h2]
  · intro h1 h2
    simp only [processLoop]
    rw [if_pos h1, if_neg (by omega)]
  · intro i hi
    constructor
    · show (if s.mPos ≤ s.mPos + i ∧ s.mPos + i < s.mPos + StftStep
          then hopAccum B fftF fftI s (s.mPos + i) else s.mFIFO (s.mPos + i))
          = hopAccum B fftF fftI s (s.mPos + i)
      rw [if_pos ⟨Nat.le_add_right _ i, by omega⟩]
    · show (if s.mPos ≤ s.mPos + i ∧ s.mPos + i < s.mPos + StftStep
          then 0 else hopAccum B fftF fftI s (s.mPos + i)) = 0
      rw [if_pos ⟨Nat.le_add_right _ i, by omega⟩]
  · intro i hi
    constructor
    · show (if s.mPos ≤ i ∧ i < s.mPos + StftStep
          then hopAccum B fftF fftI s i else s.mFIFO i) = s.mFIFO i
      rw [if_neg (by omega)]
    · show (if s.mPos ≤ i ∧ i < s.mPos + StftStep
          then 0 else hopAccum B fftF fftI s i) = hopAccum B fftF fftI s i
      rw [if_neg (by omega)]

theorem pshifter_C5_witness :
    (hopStep 16 id id (resetState 16)).mOutputAccum ((resetState 16).mPos + 0) = 0 :=
  ((pshifter_C5_framer 16 id id (fun _ => 0) (fun _ => 0) 1 0 0
    (resetState 16)).2.2.2.1 0 (by decide)).2

/-- C6: the parameter update writes only the pitch-ratio fields, the
output target and the target gains; every other component of the state —
ring buffer, phase memories, output accumulator, spectral buffer, analysis
and synthesis bins, cursor, hop counter, and the current gains — is left
unchanged for every starting state and parameter values. -/
theorem pshifter_C6_update_frame (B : ℕ) (s : PState) (CoarseTune FineTune : ℤ)
    (target : ℕ) (panGains : ℕ → ℝ) :
    (update B s CoarseTune FineTune target panGains).mFIFO = s.mFIFO
    ∧ (update B s CoarseTune FineTune target panGains).mLastPhase = s.mLastPhase
    ∧ (update B s CoarseTune FineTune target panGains).mSumPhase = s.mSumPhase
    ∧ (update B s CoarseTune FineTune target panGains).mOutputAccum = s.mOutputAccum
    ∧ (update B s CoarseTune FineTune target panGains).mFftBuffer = s.mFftBuffer
    ∧ (update B s CoarseTune FineTune target panGains).mAnalysisBuffer = s.mAnalysisBuffer
    ∧ (update B s CoarseTune FineTune target panGains).mSynthesisBuffer = s.mSynthesisBuffer
    ∧ (update B s CoarseTune FineTune target panGains).mPos = s.mPos
    ∧ (update B s CoarseTune FineTune target panGains).mCount = s.mCount
    ∧ (update B s CoarseTune FineTune target panGains).mCurrentGains = s.mCurrentGains
    ∧ (update B s CoarseTune FineTune target panGains).mOutTarget = target
    ∧ (update B s CoarseTune FineTune target panGains).mTargetGains = panGains :=
  ⟨rfl, rfl, rfl, rfl, rfl, rfl, rfl, rfl, rfl, rfl, rfl, rfl⟩

/-- C7: after the reset operation, from any prior state, every buffer is
zero, the hop counter is 0, the cursor is `StftSize - StftStep`, the pitch
ratio is 1.0 with fixed-point representation `MixerFracOne`, and all
current and target gains are 0. -/
theorem pshifter_C7_reset (B : ℕ) (s : PState) (i : ℕ) :
    (deviceUpdate B s).mFIFO i = 0
    ∧ (deviceUpdate B s).mLastPhase i = 0
    ∧ (deviceUpdate B s).mSumPhase i = 0
    ∧ (deviceUpdate B s).mOutputAccum i = 0
    ∧ (deviceUpdate B s).mFftBuffer i = 0
    ∧ (deviceUpdate B s).mAnalysisBuffer i = ⟨0, 0⟩
    ∧ (deviceUpdate B s).mSynthesisBuffer i = ⟨0, 0⟩
    ∧ (deviceUpdate B s).mCount = 0
    ∧ (deviceUpdate B s).mPos = StftSize - StftStep
    ∧ (deviceUpdate B s).mPitchShift = 1
    ∧ (deviceUpdate B s).mPitchShiftI = MixerFracOne B
    ∧ (deviceUpdate B s).mCurrentGains i = 0
    ∧ (deviceUpdate B s).mTargetGains i = 0 :=
  ⟨rfl, rfl, rfl, rfl, rfl, rfl, rfl, rfl, rfl, rfl, rfl, rfl, rfl⟩

/-- C8: `process` consumes only the first input channel line, and is
deterministic: two calls from equal states with equal `samplesToDo` and
equal first-channel samples produce identical output samples and identical
final states, even when every other channel line differs. -/
theorem pshifter_C8_first_channel_determinism (B : ℕ)
    (fftF fftI : (ℕ → ℂ) → (ℕ → ℂ)) (samplesIn1 samplesIn2 : ℕ → ℕ → ℝ)
    (n : ℕ) (s : PState) (h : samplesIn1 0 = samplesIn2 0) :
    process B fftF fftI samplesIn1 n s = process B fftF fftI samplesIn2 n s := by
  unfold process
  rw [h]

theorem pshifter_C8_witness :
    process 16 id id (fun _ _ => 0) 3 (resetState 16)
      = process 16 id id (fun c _ => if c = 0 then 0 else 1) 3 (resetState 16) :=
  pshifter_C8_first_channel_determinism 16 id id _ _ 3 (resetState 16)
    (funext fun i => by norm_num)

/-- C9: the parameter update combines the tuning inputs additively into
`tune = CoarseTune*100 + FineTune` cents, stores the pitch ratio
`2^(tune/1200)` as a fixed-point integer, and stores as floating ratio
exactly that integer divided by the fixed-point one — hence within
`1/MixerFracOne` of the ideal ratio. -/
theorem pshifter_C9_pitch_ratio (B : ℕ) (s : PState) (CoarseTune FineTune : ℤ)
    (target : ℕ) (panGains : ℕ → ℝ) :
    (update B s CoarseTune FineTune target panGains).mPitchShiftI
        = (⌊(2 : ℝ) ^ (((CoarseTune * 100 + FineTune : ℤ) : ℝ) / 1200)
            * (MixerFracOne B : ℝ)⌋).toNat
    ∧ (update B s CoarseTune FineTune target panGains).mPitchShift
        = ((update B s CoarseTune FineTune target panGains).mPitchShiftI : ℝ)
            / (MixerFracOne B : ℝ)
    ∧ |(update B s CoarseTune FineTune target panGains).mPitchShift
        - (2 : ℝ) ^ (((CoarseTune * 100 + FineTune : ℤ) : ℝ) / 1200)|
        < 1 / (MixerFracOne B : ℝ) := by
  have hEn : 0 < MixerFracOne B := by
    rw [MixerFracOne_eq]
    exact Nat.pos_pow_of_pos B (by norm_num)
  have hE : (0 : ℝ) < (MixerFracOne B : ℝ) := by exact_mod_cast hEn
  set p : ℝ := (2 : ℝ) ^ (((CoarseTune * 100 + FineTune : ℤ) : ℝ) / 1200) with hp
  have hppos : 0 < p := Real.rpow_pos_of_pos (by norm_num) _
  have hfl0 : (0 : ℤ) ≤ ⌊p * (MixerFracOne B : ℝ)⌋ :=
    Int.floor_nonneg.2 (le_of_lt (mul_pos hppos hE))
  refine ⟨rfl, mul_one_div _ _, ?_⟩
  have hcast : (((⌊p * (MixerFracOne B : ℝ)⌋).toNat : ℕ) : ℝ)
      = ((⌊p * (MixerFracOne B : ℝ)⌋ : ℤ) : ℝ) := by
    exact_mod_cast Int.toNat_of_nonneg hfl0
  have h1 : ((⌊p * (MixerFracOne B : ℝ)⌋ : ℤ) : ℝ) ≤ p * (MixerFracOne B : ℝ) :=
    Int.floor_le _
  have h2 : p * (MixerFracOne B : ℝ) < (⌊p * (MixerFracOne B : ℝ)⌋ : ℤ) + 1 :=
    Int.lt_floor_add_one _
  have key1 : ((⌊p * (MixerFracOne B : ℝ)⌋ : ℤ) : ℝ) / (MixerFracOne B : ℝ) ≤ p := by
    rw [div_le_iff₀ hE]
    exact h1
  have key2 : p < ((⌊p * (MixerFracOne B : ℝ)⌋ : ℤ) : ℝ) / (MixerFracOne B : ℝ)
      + 1 / (MixerFracOne B : ℝ) := by
    rw [div_add_div_same, lt_div_iff₀ hE]
    exact h2
  show |((⌊p * (MixerFracOne B : ℝ)⌋).toNat : ℝ) * (1 / (MixerFracOne B : ℝ)) - p|
      < 1 / (MixerFracOne B : ℝ)
  rw [mul_one_div, hcast, abs_sub_lt_iff]
  have hid : 0 < 1 / (MixerFracOne B : ℝ) := one_div_pos.mpr hE
  constructor
  · linarith
  · linarith

/-- The cursor/counter invariant of the framer: the cursor is a multiple
of `StftStep` that leaves room for one hop, and the hop counter is
strictly below `StftStep`. -/
def CursorInv (s : PState) : Prop :=
  s.mPos % StftStep = 0 ∧ s.mPos + StftStep ≤ StftSize ∧ s.mCount < StftStep

theorem pos_advance {p : ℕ} (h1 : p % StftStep = 0) (h2 : p + StftStep ≤ StftSize) :
    ((p + StftStep) &&& (StftSize - 1)) % StftStep = 0
      ∧ ((p + StftStep) &&& (StftSize - 1)) + StftStep ≤ StftSize := by
  have hp : p = 0 ∨ p = 256 ∨ p = 512 ∨ p = 768 := by
    unfold StftStep StftSize OversampleFactor at h1 h2
    omega
  rcases hp with rfl | rfl | rfl | rfl <;> decide

theorem processLoop_inv (B : ℕ) (fftF fftI : (ℕ → ℂ) → (ℕ → ℂ))
    (input : ℕ → ℝ) (n : ℕ) :
    ∀ (fuel base : ℕ) (s : PState) (out : ℕ → ℝ), CursorInv s →
      CursorInv (processLoop B fftF fftI input n fuel base s out).1 := by
  intro fuel
  induction fuel with
  | zero =>
    intro base s out hs
    exact hs
  | succ fuel ih =>
    intro base s out hs
    simp only [processLoop]
    by_cases hb : base < n
    · rw [if_pos hb]
      by_cases hc : s.mCount + min (StftStep - s.mCount) (n - base) < StftStep
      · rw [if_pos hc]
        exact ⟨hs.1, hs.2.1, hc⟩
      · rw [if_neg hc]
        apply ih
        refine ⟨?_, ?_, ?_⟩
        · show ((s.mPos + StftStep) &&& (StftSize - 1)) % StftStep = 0
          exact (pos_advance hs.1 hs.2.1).1
        · show ((s.mPos + StftStep) &&& (StftSize - 1)) + StftStep ≤ StftSize
          exact (pos_advance hs.1 hs.2.1).2
        · show (0 : ℕ) < StftStep
          decide
    · rw [if_neg hb]
      exact hs

/-- C10: the cursor/counter invariant holds after reset, is preserved by
every `process` call, and makes every ring-buffer/accumulator access of
the form `mPos + mCount + i` with `i` below the chunk size stay strictly
below `StftSize`, with no wraparound mask needed. -/
theorem pshifter_C10_cursor_invariant :
    (∀ B : ℕ, CursorInv (resetState B))
    ∧ (∀ (B : ℕ) (fftF fftI : (ℕ → ℂ) → (ℕ → ℂ)) (samplesIn : ℕ → ℕ → ℝ)
        (n : ℕ) (s : PState), CursorInv s →
        CursorInv (process B fftF fftI samplesIn n s).1)
    ∧ (∀ (s : PState) (n base i : ℕ), CursorInv s →
        i < min (StftStep - s.mCount) (n - base) →
        s.mPos + s.mCount + i < StftSize) := by
  refine ⟨?_, ?_, ?_⟩
  · intro B
    refine ⟨?_, ?_, ?_⟩
    · show (StftSize - StftStep) % StftStep = 0
      decide
    · show (StftSize - StftStep) + StftStep ≤ StftSize
      decide
    · show (0 : ℕ) < StftStep
      decide
  · intro B fftF fftI samplesIn n s hs
    exact processLoop_inv B fftF fftI (samplesIn 0) n n 0 s (fun _ => 0) hs
  · intro s n base i hs hi
    obtain ⟨h1, h2, h3⟩ := hs
    have hi' : i < StftStep - s.mCount := lt_of_lt_of_le hi (min_le_left _ _)
    omega

theorem pshifter_C10_witness :
    (resetState 16).mPos + (resetState 16).mCount + 0 < StftSize :=
  pshifter_C10_cursor_invariant.2.2 (resetState 16) 1 0 0
    (pshifter_C10_cursor_invariant.1 16) (by decide)

end Pshifter
